import Mathlib

/-!
Shallow embedding of the particle-filter node in
`src/my_localizer/scripts/pf.py` (class `Particle` and class `ParticleFilter`),
together with theorems settling the specification claims about it.

Modelling conventions:
* Python floats are modelled as real numbers (`ℝ`); float literals of the
  source (`0.2`, `0.05`, ...) are carried over verbatim as real literals.
* Random draws (`random.gauss`, `numpy.random.random_sample`) are modelled by
  passing the underlying standard draws in as explicit arguments:
  `gauss mu sigma z = mu + sigma * z` where `z` is the standard-normal draw,
  and uniform draws are an explicit stream `u : ℕ → ℝ`.
* A Python runtime error (`ZeroDivisionError` in `normalize_weight`,
  `IndexError` in `draw_random_sample`) is modelled by `Option`: `none` is an
  uncaught exception, `some` a normal return.
* The occupancy field (external collaborator) is an abstract query
  `ℝ → ℝ → Option ℝ`, `none` standing for the `nan` (out-of-map) result.
-/

namespace PF

/-- `Particle` from pf.py lines 41-68: a pose hypothesis `x, y, theta` with
weight `w`.  Python constructor defaults are `x=0, y=0, theta=0, w=1`. -/
structure Particle where
  x : ℝ
  y : ℝ
  theta : ℝ
  w : ℝ

instance : Inhabited Particle := ⟨⟨0, 0, 0, 1⟩⟩

/-- `random.gauss(mu, sigma)` with the standard-normal draw `z` made
explicit: the sampled value is `mu + sigma * z`. -/
def gauss (mu sigma z : ℝ) : ℝ := mu + sigma * z

/-- `sum([particle.w for particle in self.particle_cloud])`
(pf.py line 351). -/
def totalWeight (cloud : List Particle) : ℝ := (cloud.map Particle.w).sum

/-- A Python `for`-loop (or comprehension) applying a fallible operation to
every element in order; the first uncaught exception (`none`) aborts the
whole call. -/
def mapOption (f : α → Option β) : List α → Option (List β)
  | [] => some []
  | a :: rest => do
    let b ← f a
    let bs ← mapOption f rest
    some (b :: bs)

theorem mapOption_nil (f : α → Option β) : mapOption f [] = some [] := rfl

theorem mapOption_length (f : α → Option β) :
    ∀ (l : List α) (l' : List β), mapOption f l = some l' → l'.length = l.length := by
  intro l
  induction l with
  | nil => intro l' h; simp [mapOption] at h; simp [← h]
  | cons a rest ih =>
    intro l' h
    simp only [mapOption, Option.bind_eq_bind, Option.bind_eq_some] at h
    obtain ⟨b, _, bs, hbs, hl'⟩ := h
    simp only [Option.some.injEq] at hl'
    subst hl'
    simp [ih bs hbs]

theorem mapOption_eq_map (f : α → Option β) (g : α → β) :
    ∀ l : List α, (∀ a ∈ l, f a = some (g a)) → mapOption f l = some (l.map g) := by
  intro l
  induction l with
  | nil => intro _; rfl
  | cons a rest ih =>
    intro h
    have ha : f a = some (g a) := h a (by simp)
    have hr := ih (fun x hx => h x (by simp [hx]))
    simp [mapOption, ha, hr]

theorem mapOption_eq_none_of_mem (f : α → Option β) :
    ∀ (l : List α) (a : α), a ∈ l → f a = none → mapOption f l = none := by
  intro l
  induction l with
  | nil => intro a ha; simp at ha
  | cons b rest ih =>
    intro a ha hfa
    rcases List.mem_cons.mp ha with h | h
    · subst h; simp [mapOption, hfa]
    · cases hfb : f b with
      | none => simp [mapOption, hfb]
      | some c => simp [mapOption, hfb, ih a h hfa]

theorem mapOption_isSome (f : α → Option β) :
    ∀ l : List α, (∀ a ∈ l, ∃ b, f a = some b) →
      ∃ l', mapOption f l = some l' ∧ l'.length = l.length := by
  intro l
  induction l with
  | nil => intro _; exact ⟨[], rfl, rfl⟩
  | cons a rest ih =>
    intro h
    obtain ⟨b, hb⟩ := h a (by simp)
    obtain ⟨l', hl', hlen⟩ := ih (fun x hx => h x (by simp [hx]))
    exact ⟨b :: l', by simp [mapOption, hb, hl'], by simp [hlen]⟩

theorem mapOption_mem (f : α → Option β) :
    ∀ (l : List α) (l' : List β), mapOption f l = some l' →
      ∀ b ∈ l', ∃ a ∈ l, f a = some b := by
  intro l
  induction l with
  | nil =>
    intro l' h b hb
    simp [mapOption] at h
    subst h; simp at hb
  | cons a rest ih =>
    intro l' h b hb
    simp only [mapOption, Option.bind_eq_bind, Option.bind_eq_some] at h
    obtain ⟨c, hc, bs, hbs, hl'⟩ := h
    simp only [Option.some.injEq] at hl'
    subst hl'
    rcases List.mem_cons.mp hb with h | h
    · exact ⟨a, by simp, by simp [hc, h]⟩
    · obtain ⟨a', ha', hfa'⟩ := ih bs hbs b h
      exact ⟨a', by simp [ha'], hfa'⟩

theorem mapOption_replicate (f : α → Option β) (a : α) (b : β) (h : f a = some b) :
    ∀ n : ℕ, mapOption f (List.replicate n a) = some (List.replicate n b) := by
  intro n
  induction n with
  | zero => rfl
  | succ k ih => simp [List.replicate_succ, mapOption, h, ih]

/-- `Particle.normalize_weight` (pf.py lines 66-68): `self.w /= total_weight`.
A zero `total_weight` raises an uncaught `ZeroDivisionError`, modelled as
`none`. -/
noncomputable def normalize_weight (p : Particle) (total : ℝ) : Option Particle :=
  if total = 0 then none else some { p with w := p.w / total }

/-- `ParticleFilter.normalize_particles` (pf.py lines 347-352): sum all the
weights, then divide every particle's weight by the total.  On an empty
cloud the loop body never runs, so no division happens. -/
noncomputable def normalize_particles (cloud : List Particle) : Option (List Particle) :=
  mapOption (fun p => normalize_weight p (totalWeight cloud)) cloud

theorem normalize_particles_of_total_ne_zero (cloud : List Particle)
    (h : totalWeight cloud ≠ 0) :
    normalize_particles cloud
      = some (cloud.map fun p => { p with w := p.w / totalWeight cloud }) := by
  unfold normalize_particles
  exact mapOption_eq_map _ _ cloud (fun a _ => by simp [normalize_weight, h])

theorem sum_map_div (l : List Particle) (f : Particle → ℝ) (c : ℝ) :
    (l.map fun p => f p / c).sum = (l.map f).sum / c := by
  induction l with
  | nil => simp
  | cons a rest ih => simp [ih, add_div]

theorem totalWeight_normalized (cloud : List Particle) :
    totalWeight (cloud.map fun p => { p with w := p.w / totalWeight cloud })
      = totalWeight cloud / totalWeight cloud := by
  unfold totalWeight
  rw [List.map_map]
  exact sum_map_div cloud Particle.w (totalWeight cloud)

theorem map_div_one_weight (cloud : List Particle) :
    (cloud.map fun p => { p with w := p.w / 1 }) = cloud := by
  induction cloud with
  | nil => rfl
  | cons a rest ih => simp [ih]

theorem normalize_particles_total_one (cloud : List Particle)
    (h : totalWeight cloud = 1) : normalize_particles cloud = some cloud := by
  rw [normalize_particles_of_total_ne_zero cloud (by rw [h]; norm_num), h,
    map_div_one_weight]

/-- C8: `normalize_particles` is idempotent — a population whose weights
already sum to 1 is returned unchanged (exact arithmetic) — and whenever the
total weight is positive the call succeeds and the resulting weights sum
to 1. -/
theorem normalize_idempotent_sum_one (cloud : List Particle) :
    (totalWeight cloud = 1 → normalize_particles cloud = some cloud)
    ∧ (0 < totalWeight cloud →
        (normalize_particles cloud).map totalWeight = some 1) := by
  constructor
  · exact normalize_particles_total_one cloud
  · intro hpos
    rw [normalize_particles_of_total_ne_zero cloud (ne_of_gt hpos)]
    simp [totalWeight_normalized, div_self (ne_of_gt hpos)]

theorem normalize_idempotent_sum_one_witness :
    normalize_particles [⟨0, 0, 0, (1:ℝ)/2⟩, ⟨1, 1, 1, 1/2⟩]
        = some [⟨0, 0, 0, (1:ℝ)/2⟩, ⟨1, 1, 1, 1/2⟩]
    ∧ (normalize_particles [⟨3, 4, 5, (2:ℝ)⟩]).map totalWeight = some 1 := by
  constructor
  · exact (normalize_idempotent_sum_one _).1 (by norm_num [totalWeight])
  · exact (normalize_idempotent_sum_one _).2 (by norm_num [totalWeight])

/-- C9: `normalize_particles` does not guard the division by the total
weight: on a non-empty population whose weights are all zero the division
raises an uncaught `ZeroDivisionError` (`none`), whereas on an empty
population the call is a silent no-op. -/
theorem normalize_zero_total_error :
    (∀ cloud : List Particle, cloud ≠ [] → (∀ p ∈ cloud, p.w = 0) →
      normalize_particles cloud = none)
    ∧ normalize_particles [] = some [] := by
  constructor
  · intro cloud hne hzero
    have htot : totalWeight cloud = 0 := by
      unfold totalWeight
      apply List.sum_eq_zero
      intro x hx
      obtain ⟨p, hp, hpx⟩ := List.mem_map.mp hx
      rw [← hpx]; exact hzero p hp
    obtain ⟨p, hp⟩ := List.exists_mem_of_ne_nil cloud hne
    apply mapOption_eq_none_of_mem _ cloud p hp
    simp [normalize_weight, htot]
  · rfl

theorem normalize_zero_total_error_witness :
    normalize_particles [⟨1, 2, 3, 0⟩] = none
    ∧ normalize_particles [] = some [] := by
  refine ⟨?_, normalize_zero_total_error.2⟩
  exact normalize_zero_total_error.1 [⟨1, 2, 3, 0⟩] (by simp) (by simp)

/-- `ParticleFilter.update_robot_pose` (pf.py lines 172-194): first
`normalize_particles()` (which also mutates the stored cloud), then
`avg_x += particle.x * particle.w` (same for `y` and `theta`) over the
cloud; the pose estimate is `(avg_x, avg_y, avg_theta)` (the quaternion
conversion of `avg_theta` is abstracted to the yaw itself).  Returns the new
pose estimate together with the (normalized) particle cloud. -/
noncomputable def update_robot_pose (cloud : List Particle) :
    Option ((ℝ × ℝ × ℝ) × List Particle) :=
  (normalize_particles cloud).map fun l =>
    (((l.map fun p => p.x * p.w).sum,
      (l.map fun p => p.y * p.w).sum,
      (l.map fun p => p.theta * p.w).sum), l)

/-- C7: `update_robot_pose` enforces normalization internally (for any
population with positive total weight the pose is the weighted average with
weights divided by the total), and on an already-normalized population the
pose estimate is exactly `Σ w·x, Σ w·y, Σ w·theta` with the population left
unchanged. -/
theorem update_robot_pose_weighted_avg (cloud : List Particle) :
    (0 < totalWeight cloud →
      update_robot_pose cloud
        = some ((((cloud.map fun p => p.x * p.w).sum / totalWeight cloud,
                  (cloud.map fun p => p.y * p.w).sum / totalWeight cloud,
                  (cloud.map fun p => p.theta * p.w).sum / totalWeight cloud)),
                cloud.map fun p => { p with w := p.w / totalWeight cloud }))
    ∧ (totalWeight cloud = 1 →
      update_robot_pose cloud
        = some ((((cloud.map fun p => p.x * p.w).sum,
                  (cloud.map fun p => p.y * p.w).sum,
                  (cloud.map fun p => p.theta * p.w).sum)), cloud)) := by
  have key : ∀ W : ℝ, W ≠ 0 →
      ((cloud.map fun p => { p with w := p.w / W }).map fun p => p.x * p.w).sum
        = (cloud.map fun p => p.x * p.w).sum / W := by
    intro W _
    rw [List.map_map]
    have : ((fun p : Particle => p.x * p.w) ∘ fun p => { p with w := p.w / W })
        = fun p : Particle => (p.x * p.w) / W := by
      funext p; simp [Function.comp, mul_div_assoc]
    rw [this, sum_map_div cloud (fun p => p.x * p.w) W]
  have keyY : ∀ W : ℝ, W ≠ 0 →
      ((cloud.map fun p => { p with w := p.w / W }).map fun p => p.y * p.w).sum
        = (cloud.map fun p => p.y * p.w).sum / W := by
    intro W _
    rw [List.map_map]
    have : ((fun p : Particle => p.y * p.w) ∘ fun p => { p with w := p.w / W })
        = fun p : Particle => (p.y * p.w) / W := by
      funext p; simp [Function.comp, mul_div_assoc]
    rw [this, sum_map_div cloud (fun p => p.y * p.w) W]
  have keyT : ∀ W : ℝ, W ≠ 0 →
      ((cloud.map fun p => { p with w := p.w / W }).map fun p => p.theta * p.w).sum
        = (cloud.map fun p => p.theta * p.w).sum / W := by
    intro W _
    rw [List.map_map]
    have : ((fun p : Particle => p.theta * p.w) ∘ fun p => { p with w := p.w / W })
        = fun p : Particle => (p.theta * p.w) / W := by
      funext p; simp [Function.comp, mul_div_assoc]
    rw [this, sum_map_div cloud (fun p => p.theta * p.w) W]
  constructor
  · intro hpos
    have hne := ne_of_gt hpos
    unfold update_robot_pose
    rw [normalize_particles_of_total_ne_zero cloud hne, Option.map_some',
      key _ hne, keyY _ hne, keyT _ hne]
  · intro h1
    unfold update_robot_pose
    rw [normalize_particles_of_total_ne_zero cloud (by rw [h1]; norm_num), h1,
      map_div_one_weight, Option.map_some']

theorem update_robot_pose_weighted_avg_witness :
    update_robot_pose [⟨2, 3, 4, 5⟩] = some ((2, 3, 4), [⟨2, 3, 4, 1⟩]) := by
  have h := (update_robot_pose_weighted_avg [⟨2, 3, 4, 5⟩]).1
    (by norm_num [totalWeight])
  rw [h]
  norm_num [totalWeight]

/-- `np.add.accumulate` on a list of probabilities (pf.py line 311):
the running cumulative sums `[p₀, p₀+p₁, ...]`. -/
def cumsum : List ℝ → List ℝ
  | [] => []
  | p :: rest => p :: (cumsum rest).map (p + ·)

/-- `np.digitize(x, bins)` for monotonically increasing `bins` (the default
`right=False`): the number of bin edges `≤ x`. -/
noncomputable def countLE (x : ℝ) : List ℝ → ℕ
  | [] => 0
  | b :: rest => (if b ≤ x then 1 else 0) + countLE x rest

/-- `ParticleFilter.draw_random_sample` (pf.py lines 301-316): accumulate the
probabilities into a CDF, digitize `n` uniform draws `u 0, ..., u (n-1)`
into it, and deep-copy the chosen elements.  An index equal to
`len(choices)` (draw at or above the last cumulative value) raises an
uncaught `IndexError`, modelled by `List.get?` returning `none`. -/
noncomputable def draw_random_sample (choices : List Particle) (probs : List ℝ)
    (n : ℕ) (u : ℕ → ℝ) : Option (List Particle) :=
  mapOption (fun x => choices.get? (countLE x (cumsum probs)))
    ((List.range n).map u)

theorem cumsum_length : ∀ l : List ℝ, (cumsum l).length = l.length := by
  intro l
  induction l with
  | nil => rfl
  | cons p rest ih => simp [cumsum, ih]

theorem countLE_le_length (x : ℝ) : ∀ l : List ℝ, countLE x l ≤ l.length := by
  intro l
  induction l with
  | nil => simp [countLE]
  | cons b rest ih =>
    by_cases h : b ≤ x <;> simp [countLE, h] <;> omega

theorem countLE_map_add (x c : ℝ) :
    ∀ l : List ℝ, countLE x (l.map (c + ·)) = countLE (x - c) l := by
  intro l
  induction l with
  | nil => rfl
  | cons b rest ih =>
    have : c + b ≤ x ↔ b ≤ x - c := by constructor <;> intro h <;> linarith
    by_cases hb : b ≤ x - c
    · simp [countLE, ih, this, hb]
    · simp [countLE, ih, this, hb]

theorem countLE_cumsum_of_sum_le (probs : List ℝ) :
    ∀ x : ℝ, (∀ p ∈ probs, 0 ≤ p) → probs.sum ≤ x →
      countLE x (cumsum probs) = probs.length := by
  induction probs with
  | nil => intro x _ _; rfl
  | cons p rest ih =>
    intro x hnn hs
    have hrest : 0 ≤ rest.sum :=
      List.sum_nonneg (fun a ha => hnn a (by simp [ha]))
    have hsum : p + rest.sum ≤ x := by simpa using hs
    have hp : p ≤ x := by linarith
    simp only [cumsum, countLE, countLE_map_add]
    rw [ih (x - p) (fun a ha => hnn a (by simp [ha])) (by linarith)]
    simp [hp]
    omega

theorem sum_mem_cumsum :
    ∀ probs : List ℝ, probs ≠ [] → probs.sum ∈ cumsum probs := by
  intro probs
  induction probs with
  | nil => intro h; simp at h
  | cons p rest ih =>
    intro _
    by_cases hr : rest = []
    · subst hr; simp [cumsum]
    · have hmem : p + rest.sum ∈ (cumsum rest).map (p + ·) :=
        List.mem_map.mpr ⟨rest.sum, ih hr, rfl⟩
      simp only [List.sum_cons, cumsum, List.mem_cons]
      right
      exact hmem

theorem countLE_lt_length_of_mem_gt (x : ℝ) :
    ∀ (l : List ℝ) (b : ℝ), b ∈ l → x < b → countLE x l < l.length := by
  intro l
  induction l with
  | nil => intro b hb; simp at hb
  | cons c rest ih =>
    intro b hb hxb
    rcases List.mem_cons.mp hb with h | h
    · subst h
      have : ¬ (b ≤ x) := by linarith
      simp only [countLE, this, if_false, List.length_cons]
      have := countLE_le_length x rest
      omega
    · have := ih b h hxb
      by_cases hc : c ≤ x <;> simp [countLE, hc] <;> omega

/-- C10: `draw_random_sample`'s CDF inversion is unguarded at the top bin:
if any of the `n` uniform draws is at or above the total of the supplied
probabilities, `np.digitize` yields the out-of-range index `len(choices)`
and the call raises (returns `none`); if every draw lies strictly below the
total, it returns exactly `n` elements, each an element (a copy) of
`choices`. -/
theorem draw_random_sample_top_bin (choices : List Particle) (probs : List ℝ)
    (n : ℕ) (u : ℕ → ℝ) (hne : probs ≠ []) (hlen : choices.length = probs.length) :
    ((∀ p ∈ probs, 0 ≤ p) → ∀ i, i < n → probs.sum ≤ u i →
      draw_random_sample choices probs n u = none)
    ∧ ((∀ i, i < n → u i < probs.sum) →
      ((draw_random_sample choices probs n u).map List.length = some n
        ∧ ∀ l, draw_random_sample choices probs n u = some l →
            ∀ q ∈ l, q ∈ choices)) := by
  constructor
  · intro hnn i hi hge
    apply mapOption_eq_none_of_mem _ _ (u i)
      (List.mem_map.mpr ⟨i, List.mem_range.mpr hi, rfl⟩)
    rw [countLE_cumsum_of_sum_le probs (u i) hnn hge]
    exact List.get?_eq_none.mpr (le_of_eq hlen)
  · intro hlt
    have hsome : ∀ x ∈ (List.range n).map u,
        ∃ b, choices.get? (countLE x (cumsum probs)) = some b := by
      intro x hx
      obtain ⟨i, hi, hix⟩ := List.mem_map.mp hx
      subst hix
      have hcnt : countLE (u i) (cumsum probs) < choices.length := by
        rw [hlen, ← cumsum_length probs]
        exact countLE_lt_length_of_mem_gt (u i) (cumsum probs) probs.sum
          (sum_mem_cumsum probs hne) (hlt i (List.mem_range.mp hi))
      exact ⟨_, List.get?_eq_get hcnt⟩
    obtain ⟨l, hl, hlen'⟩ := mapOption_isSome _ _ hsome
    constructor
    · rw [draw_random_sample, hl]
      simp [hlen']
    · intro l' hl' q hq
      rw [draw_random_sample] at hl'
      obtain ⟨a, _, hfa⟩ := mapOption_mem _ _ _ hl' q hq
      exact List.get?_mem hfa

theorem draw_random_sample_top_bin_witness :
    draw_random_sample [⟨0, 0, 0, 1⟩] [(1:ℝ)/2] 1 (fun _ => 3/4) = none
    ∧ (draw_random_sample [⟨0, 0, 0, 1⟩] [(1:ℝ)/2] 1 (fun _ => 0)).map List.length
        = some 1 := by
  constructor
  · exact (draw_random_sample_top_bin [⟨0, 0, 0, 1⟩] [(1:ℝ)/2] 1 (fun _ => 3/4)
      (by simp) (by simp)).1 (by norm_num) 0 (by norm_num) (by norm_num)
  · exact ((draw_random_sample_top_bin [⟨0, 0, 0, 1⟩] [(1:ℝ)/2] 1 (fun _ => 0)
      (by simp) (by simp)).2 (by intro i _; norm_num)).1

/-- The configuration fields of `ParticleFilter.__init__` used by the claims
(pf.py lines 101-118). -/
structure Config where
  n_particles : ℝ
  sample_factor : ℝ
  d_thresh : ℝ
  a_thresh : ℝ
  model_noise_rate : ℝ
  model_noise_floor : ℝ
  linear_resample_sigma : ℝ
  angular_resample_sigma : ℝ

/-- `ParticleFilter.__init__` lines 101-118: `sample_factor` is read from the
parameter server and
`n_particles = int(sample_factor * n_particles_param) / sample_factor`
(Python 2: `int/float` is float division).  No validation of any parameter
combination is performed anywhere in `__init__` — there is no failure path,
so the embedding is a total function. -/
noncomputable def pf_init (sfParam : ℝ) (nParam : ℕ) (rate floorP sigL sigA : ℝ) :
    Config :=
  { n_particles := (⌊sfParam * nParam⌋ : ℝ) / sfParam
    sample_factor := sfParam
    d_thresh := 0.2
    a_thresh := Real.pi / 6
    model_noise_rate := rate
    model_noise_floor := floorP
    linear_resample_sigma := sigL
    angular_resample_sigma := sigA * Real.pi / 180 }

/-- The noisy duplicate of a sampled particle in `resample_particles`
(pf.py lines 259-263): gaussian jitter on `x`, `y`, `theta`; the weight `w`
is copied unchanged by `deepcopy`. -/
noncomputable def jitterParticle (cfg : Config) (z : ℝ × ℝ × ℝ) (p : Particle) :
    Particle :=
  { p with
    x := gauss p.x cfg.linear_resample_sigma z.1
    y := gauss p.y cfg.linear_resample_sigma z.2.1
    theta := gauss p.theta cfg.angular_resample_sigma z.2.2 }

/-- The rebuild loop of `resample_particles` (pf.py lines 254-264): each
sampled elite particle is appended once verbatim, followed by
`int(1/sample_factor) - 1` jittered copies.  `nz i j` is the triple of
standard-normal draws for copy `j` of elite particle `i`. -/
noncomputable def buildCloud (cfg : Config) (nz : ℕ → ℕ → ℝ × ℝ × ℝ) :
    ℕ → List Particle → List Particle
  | _, [] => []
  | i, p :: rest =>
      (p :: (List.range (⌊1 / cfg.sample_factor⌋ - 1).toNat).map
        (fun j => jitterParticle cfg (nz i j) p))
      ++ buildCloud cfg nz (i + 1) rest

/-- `ParticleFilter.resample_particles` (pf.py lines 238-264): normalize the
cloud, collect the weights as probabilities, draw
`int(n_particles * sample_factor)` elite particles with
`draw_random_sample`, then rebuild the cloud with `buildCloud`. -/
noncomputable def resample_particles (cfg : Config) (cloud : List Particle)
    (u : ℕ → ℝ) (nz : ℕ → ℕ → ℝ × ℝ × ℝ) : Option (List Particle) := do
  let cloudN ← normalize_particles cloud
  let probs := cloudN.map Particle.w
  let samples ← draw_random_sample cloudN probs
    (⌊cfg.n_particles * cfg.sample_factor⌋).toNat u
  some (buildCloud cfg nz 0 samples)

theorem buildCloud_length (cfg : Config) (nz : ℕ → ℕ → ℝ × ℝ × ℝ) :
    ∀ (samples : List Particle) (i : ℕ),
      (buildCloud cfg nz i samples).length
        = samples.length * (1 + (⌊1 / cfg.sample_factor⌋ - 1).toNat) := by
  intro samples
  induction samples with
  | nil => intro i; simp [buildCloud]
  | cons p rest ih =>
    intro i
    simp [buildCloud, ih (i + 1)]
    ring

theorem buildCloud_weight_mem (cfg : Config) (nz : ℕ → ℕ → ℝ × ℝ × ℝ) :
    ∀ (samples : List Particle) (i : ℕ) (q : Particle),
      q ∈ buildCloud cfg nz i samples → ∃ s ∈ samples, q.w = s.w := by
  intro samples
  induction samples with
  | nil => intro i q hq; simp [buildCloud] at hq
  | cons p rest ih =>
    intro i q hq
    simp only [buildCloud, List.mem_append, List.mem_cons, List.mem_map] at hq
    rcases hq with (h | ⟨j, _, hj⟩) | h
    · exact ⟨p, by simp, by rw [h]⟩
    · refine ⟨p, by simp, ?_⟩
      rw [← hj]
      rfl
    · obtain ⟨s, hs, hw⟩ := ih (i + 1) q h
      exact ⟨s, by simp [hs], hw⟩

/-- The length of any successfully resampled cloud, straight from the code:
`int(n_particles * sample_factor)` elite particles, each duplicated
`1 + (int(1/sample_factor) - 1)` times. -/
theorem resample_length (cfg : Config) (cloud : List Particle) (u : ℕ → ℝ)
    (nz : ℕ → ℕ → ℝ × ℝ × ℝ) (l : List Particle)
    (h : resample_particles cfg cloud u nz = some l) :
    l.length = (⌊cfg.n_particles * cfg.sample_factor⌋).toNat
      * (1 + (⌊1 / cfg.sample_factor⌋ - 1).toNat) := by
  simp only [resample_particles, Option.bind_eq_bind, Option.bind_eq_some] at h
  obtain ⟨cloudN, hN, samples, hs, hl⟩ := h
  simp only [Option.some.injEq] at hl
  subst hl
  rw [buildCloud_length]
  congr 1
  have := mapOption_length _ _ _ hs
  simpa using this

/-- Evaluation helper: on a singleton cloud of weight 1 with all uniform
draws 0, resampling succeeds and returns the rebuilt cloud over
`int(n_particles * sample_factor)` copies of the particle. -/
theorem resample_singleton_eval (cfg : Config) (p : Particle) (nz : ℕ → ℕ → ℝ × ℝ × ℝ)
    (hp : p.w = 1) :
    resample_particles cfg [p] (fun _ => 0) nz
      = some (buildCloud cfg nz 0
          (List.replicate (⌊cfg.n_particles * cfg.sample_factor⌋).toNat p)) := by
  have htot : totalWeight [p] = 1 := by simp [totalWeight, hp]
  have hnorm : normalize_particles [p] = some [p] :=
    normalize_particles_total_one [p] htot
  have hget : ([p].get? (countLE 0 (cumsum ([p].map Particle.w)))) = some p := by
    have : countLE 0 (cumsum ([p].map Particle.w)) = 0 := by
      simp [cumsum, countLE, hp]
    rw [this]
    rfl
  have hdraw : draw_random_sample [p] ([p].map Particle.w)
      (⌊cfg.n_particles * cfg.sample_factor⌋).toNat (fun _ => 0)
      = some (List.replicate (⌊cfg.n_particles * cfg.sample_factor⌋).toNat p) := by
    unfold draw_random_sample
    rw [List.map_const']
    simp only [List.length_range]
    exact mapOption_replicate _ 0 p hget _
  simp only [resample_particles, Option.bind_eq_bind, hnorm, Option.some_bind, hdraw]

/-- C1 counterexample: with the rosparam defaults `n_particles = 10` and
`sample_factor = 3/10`, `__init__` computes `self.n_particles = 10`, yet a
resample of a normalized singleton cloud returns 9 particles: the cloud
size after resampling is `int(n·sf)·int(1/sf) = 3·3 = 9 ≠ 10`. -/
theorem resample_size_mismatch_cx :
    (pf_init (3/10) 10 0.05 0.05 0.1 5).n_particles = 10
    ∧ (resample_particles (pf_init (3/10) 10 0.05 0.05 0.1 5)
        [⟨0, 0, 0, 1⟩] (fun _ => 0) (fun _ _ => (0, 0, 0))).map List.length
        = some 9 := by
  have hfloor3 : ⌊(3:ℝ)/10 * (10:ℕ)⌋ = 3 := by
    rw [Int.floor_eq_iff]
    norm_num
  have hn : (pf_init (3/10) 10 0.05 0.05 0.1 5).n_particles = 10 := by
    simp only [pf_init, hfloor3]
    norm_num
  refine ⟨hn, ?_⟩
  rw [resample_singleton_eval _ _ _ rfl]
  simp only [Option.map_some', Option.some.injEq]
  rw [buildCloud_length]
  simp only [List.length_replicate]
  have h1 : ⌊(pf_init (3/10) 10 0.05 0.05 0.1 5).n_particles
      * (pf_init (3/10) 10 0.05 0.05 0.1 5).sample_factor⌋ = 3 := by
    rw [hn]
    simp only [pf_init]
    rw [Int.floor_eq_iff]
    norm_num
  have h2 : ⌊1 / (pf_init (3/10) 10 0.05 0.05 0.1 5).sample_factor⌋ = 3 := by
    simp only [pf_init]
    rw [Int.floor_eq_iff]
    norm_num
  rw [h1, h2]
  rfl

/-- C1 as amended: whenever `1/sample_factor` is a positive integer `m` and
`n_particles` has the form `k / sample_factor` produced by `__init__`
(so that `n_particles · sample_factor` is the integer `k`), a successful
resample returns a cloud of exactly `n_particles` particles.  (The default
configuration `sample_factor = 0.25` satisfies this.) -/
theorem resample_conserves_size (cfg : Config) (cloud : List Particle)
    (u : ℕ → ℝ) (nz : ℕ → ℕ → ℝ × ℝ × ℝ) (l : List Particle) (m k : ℕ)
    (hm : 0 < m) (hsf : cfg.sample_factor * m = 1)
    (hn : cfg.n_particles = (k : ℝ) / cfg.sample_factor)
    (h : resample_particles cfg cloud u nz = some l) :
    (l.length : ℝ) = cfg.n_particles := by
  have hsf0 : cfg.sample_factor ≠ 0 := by
    intro h0
    rw [h0] at hsf
    simp at hsf
  have hinv : 1 / cfg.sample_factor = (m : ℝ) := by
    field_simp
    linarith [hsf]
  have hprod : cfg.n_particles * cfg.sample_factor = (k : ℝ) := by
    rw [hn]
    field_simp
  have h1 : ⌊cfg.n_particles * cfg.sample_factor⌋ = (k : ℤ) := by
    rw [hprod]
    exact_mod_cast Int.floor_natCast k
  have h2 : ⌊1 / cfg.sample_factor⌋ = (m : ℤ) := by
    rw [hinv]
    exact_mod_cast Int.floor_natCast m
  rw [resample_length cfg cloud u nz l h, h1, h2]
  have hm1 : (1 + ((m : ℤ) - 1).toNat) = m := by omega
  have hk : ((k : ℤ)).toNat = k := by omega
  rw [hk, hm1]
  push_cast
  rw [← hinv, hn]
  ring

/-- A concrete configuration for witnesses and counterexamples; only
`n_particles` and `sample_factor` matter to the resampler arithmetic. -/
noncomputable def cfgTest (n sf : ℝ) : Config :=
  { n_particles := n
    sample_factor := sf
    d_thresh := 0.2
    a_thresh := Real.pi / 6
    model_noise_rate := 0.05
    model_noise_floor := 0.05
    linear_resample_sigma := 0.1
    angular_resample_sigma := 0.1 }

theorem resample_conserves_size_witness :
    (resample_particles (cfgTest 4 (1/2))
        [⟨0, 0, 0, 1⟩] (fun _ => 0) (fun _ _ => (0, 0, 0))).map
      (fun l => (l.length : ℝ)) = some (cfgTest 4 (1/2)).n_particles := by
  have hev := resample_singleton_eval (cfgTest 4 (1/2))
    ⟨0, 0, 0, 1⟩ (fun _ _ => (0, 0, 0)) rfl
  rw [hev, Option.map_some', Option.some.injEq]
  exact resample_conserves_size (cfgTest 4 (1/2))
    [⟨0, 0, 0, 1⟩] (fun _ => 0) (fun _ _ => (0, 0, 0)) _ 2 2
    (by norm_num) (by simp only [cfgTest]; norm_num)
    (by simp only [cfgTest]; norm_num) hev

/-- C5 counterexample: resampling the normalized two-particle cloud with
weights `1/4` and `3/4` (config `n_particles = 4`, `sample_factor = 1/2`,
draws picking each particle once) returns a cloud whose weight list is
`[1/4, 1/4, 3/4, 3/4]` — the weights are not reset to a common uniform
value; each copy keeps its elite ancestor's weight. -/
theorem resample_weights_not_uniform_cx :
    (resample_particles (cfgTest 4 (1/2))
        [⟨0, 0, 0, 1/4⟩, ⟨1, 0, 0, 3/4⟩]
        (fun i => if i = 0 then 0 else 1/2) (fun _ _ => (0, 0, 0))).map
      (List.map Particle.w) = some [1/4, 1/4, 3/4, 3/4]
    ∧ ¬ (∀ a ∈ [(1:ℝ)/4, 1/4, 3/4, 3/4], ∀ b ∈ [(1:ℝ)/4, 1/4, 3/4, 3/4], a = b) := by
  constructor
  · have htot : totalWeight [(⟨0, 0, 0, 1/4⟩ : Particle), ⟨1, 0, 0, 3/4⟩] = 1 := by
      norm_num [totalWeight]
    have hnorm : normalize_particles [(⟨0, 0, 0, 1/4⟩ : Particle), ⟨1, 0, 0, 3/4⟩]
        = some [⟨0, 0, 0, 1/4⟩, ⟨1, 0, 0, 3/4⟩] :=
      normalize_particles_total_one _ htot
    have hElite : (⌊(cfgTest 4 (1/2)).n_particles
        * (cfgTest 4 (1/2)).sample_factor⌋).toNat = 2 := by
      simp only [cfgTest]
      norm_num
      rfl
    have hc0 : countLE 0 (cumsum [(1:ℝ)/4, 3/4]) = 0 := by
      norm_num [cumsum, countLE]
    have hc1 : countLE (1/2) (cumsum [(1:ℝ)/4, 3/4]) = 1 := by
      norm_num [cumsum, countLE]
    have hdraw : draw_random_sample [(⟨0, 0, 0, 1/4⟩ : Particle), ⟨1, 0, 0, 3/4⟩]
        ([(⟨0, 0, 0, 1/4⟩ : Particle), ⟨1, 0, 0, 3/4⟩].map Particle.w)
        2 (fun i => if i = 0 then 0 else 1/2)
        = some [⟨0, 0, 0, 1/4⟩, ⟨1, 0, 0, 3/4⟩] := by
      unfold draw_random_sample
      rw [show List.range 2 = [0, 1] from rfl]
      simp only [List.map_cons, List.map_nil, mapOption]
      norm_num [hc0, hc1]
    have hone : (⌊1 / (cfgTest 4 (1/2)).sample_factor⌋ - 1).toNat = 1 := by
      simp only [cfgTest]
      norm_num
    simp only [resample_particles, Option.bind_eq_bind, hnorm, Option.some_bind,
      hElite]
    rw [show ((⟨0, 0, 0, 1/4⟩ : Particle) :: [⟨1, 0, 0, 3/4⟩])
        = [(⟨0, 0, 0, 1/4⟩ : Particle), ⟨1, 0, 0, 3/4⟩] from rfl]
    rw [hdraw, Option.some_bind, Option.map_some', Option.some.injEq]
    simp only [buildCloud, hone]
    rfl
  · intro h
    have := h (1/4) (by simp) (3/4) (by simp)
    norm_num at this

/-- C5 as amended: the resampled population's weights are not reset to a
uniform value; every particle of a successfully resampled cloud carries the
weight of its elite ancestor in the normalized input population
(`deepcopy` copies `w`, and the rebuild loop never writes it). -/
theorem resample_weights_inherited (cfg : Config) (cloud : List Particle)
    (u : ℕ → ℝ) (nz : ℕ → ℕ → ℝ × ℝ × ℝ) (l : List Particle)
    (h : resample_particles cfg cloud u nz = some l) :
    ∀ q ∈ l, q.w ∈ (cloud.map fun p => p.w / totalWeight cloud) := by
  intro q hq
  simp only [resample_particles, Option.bind_eq_bind, Option.bind_eq_some] at h
  obtain ⟨cloudN, hN, samples, hs, hl⟩ := h
  simp only [Option.some.injEq] at hl
  subst hl
  obtain ⟨s, hsmem, hw⟩ := buildCloud_weight_mem cfg nz samples 0 q hq
  have hsN : s ∈ cloudN := by
    obtain ⟨x, _, hfx⟩ := mapOption_mem _ _ _ hs s hsmem
    exact List.get?_mem hfx
  have hWne : totalWeight cloud ≠ 0 := by
    intro h0
    cases hcl : cloud with
    | nil =>
      subst hcl
      simp only [normalize_particles, mapOption] at hN
      have : cloudN = [] := by simpa using hN.symm
      subst this
      simp at hsN
    | cons a rest =>
      subst hcl
      have := mapOption_eq_none_of_mem
        (fun p => normalize_weight p (totalWeight (a :: rest))) (a :: rest) a
        (by simp) (by simp [normalize_weight, h0])
      rw [normalize_particles] at hN
      rw [this] at hN
      exact Option.noConfusion hN
  rw [normalize_particles_of_total_ne_zero cloud hWne] at hN
  have hcloudN : cloudN = cloud.map fun p => { p with w := p.w / totalWeight cloud } := by
    simpa using hN.symm
  subst hcloudN
  obtain ⟨p, hp, hps⟩ := List.mem_map.mp hsN
  apply List.mem_map.mpr
  refine ⟨p, hp, ?_⟩
  rw [hw, ← hps]

theorem resample_weights_inherited_witness :
    ((⟨0, 0, 0, (1:ℝ)⟩ : Particle).w
      ∈ ([⟨0, 0, 0, 1⟩] : List Particle).map
          (fun p => p.w / totalWeight [⟨0, 0, 0, 1⟩])) := by
  have hev := resample_singleton_eval (cfgTest 2 1)
    ⟨0, 0, 0, 1⟩ (fun _ _ => (0, 0, 0)) rfl
  have h2 : (⌊(cfgTest 2 1).n_particles * (cfgTest 2 1).sample_factor⌋).toNat
      = 2 := by
    simp only [cfgTest]
    norm_num
    rfl
  have hq : (⟨0, 0, 0, (1:ℝ)⟩ : Particle)
      ∈ buildCloud (cfgTest 2 1) (fun _ _ => (0, 0, 0)) 0
        (List.replicate
          (⌊(cfgTest 2 1).n_particles * (cfgTest 2 1).sample_factor⌋).toNat
          ⟨0, 0, 0, 1⟩) := by
    rw [h2]
    simp [List.replicate, buildCloud]
  exact resample_weights_inherited _ _ _ _ _ hev ⟨0, 0, 0, (1:ℝ)⟩ hq

/-- C6: `__init__` (pf.py lines 101-102) performs no configuration
validation.  With rosparams `sample_factor = 1/5` and `n_particles = 4` the
elite count `int(n_particles * sample_factor)` is 0, initialization
nevertheless completes (computing `self.n_particles = 0`), and
`resample_particles` silently returns an empty particle cloud instead of the
fail-fast behaviour the specification requires. -/
theorem init_no_elite_validation :
    (pf_init (1/5) 4 0.05 0.05 0.1 5).n_particles = 0
    ∧ (⌊(pf_init (1/5) 4 0.05 0.05 0.1 5).n_particles
        * (pf_init (1/5) 4 0.05 0.05 0.1 5).sample_factor⌋).toNat = 0
    ∧ resample_particles (pf_init (1/5) 4 0.05 0.05 0.1 5)
        [⟨0, 0, 0, 1⟩] (fun _ => 0) (fun _ _ => (0, 0, 0)) = some [] := by
  have hfloor : ⌊(1:ℝ)/5 * ((4:ℕ):ℝ)⌋ = 0 := by
    rw [Int.floor_eq_iff]
    norm_num
  have hn : (pf_init (1/5) 4 0.05 0.05 0.1 5).n_particles = 0 := by
    simp only [pf_init]
    rw [hfloor]
    norm_num
  have hElite : (⌊(pf_init (1/5) 4 0.05 0.05 0.1 5).n_particles
      * (pf_init (1/5) 4 0.05 0.05 0.1 5).sample_factor⌋).toNat = 0 := by
    rw [hn]
    norm_num
  refine ⟨hn, hElite, ?_⟩
  rw [resample_singleton_eval _ _ _ rfl, hElite]
  rfl

/-- The subsampled beam indices `range(0, len(msg.ranges), 5)` of
`update_particles_with_laser` (pf.py line 270). -/
def strideIndices (n : ℕ) : List ℕ := (List.range n).filter (fun i => i % 5 == 0)

/-- The per-beam contribution of `update_particles_with_laser`
(pf.py lines 270-286): project the beam endpoint from the particle's
hypothesized pose (`phi = i * pi/180` is the scan angle of beam `i`), query
the occupancy field for the closest-obstacle distance (a `nan`/undefined
result is replaced by the fixed penalty distance 5.0), and score it with
`sqrt(2)/sqrt(pi) * exp(-(d^2 / 2 * noise_rate^2)) + noise_floor`. -/
noncomputable def point_weight (cfg : Config) (query : ℝ → ℝ → Option ℝ)
    (p : Particle) (r : ℝ) (i : ℕ) : ℝ :=
  let phi := (i : ℝ) * Real.pi / 180
  let point_x := p.x + r * Real.cos (p.theta + phi)
  let point_y := p.y + r * Real.sin (p.theta + phi)
  let d := (query point_x point_y).getD 5.0
  Real.sqrt 2 / Real.sqrt Real.pi
    * Real.exp (-(d ^ 2 / 2 * cfg.model_noise_rate ^ 2)) + cfg.model_noise_floor

/-- `ParticleFilter.update_particles_with_laser` (pf.py lines 266-289):
every particle's weight is overwritten with the SUM of the per-beam
contributions over the stride-5 subsampled beams. -/
noncomputable def update_particles_with_laser (cfg : Config)
    (query : ℝ → ℝ → Option ℝ) (ranges : List ℝ) (cloud : List Particle) :
    List Particle :=
  cloud.map fun p =>
    { p with
      w := ((strideIndices ranges.length).map
        (fun i => point_weight cfg query p (ranges.getD i 0) i)).sum }

theorem strideIndices_ne_nil (n : ℕ) (h : 0 < n) : strideIndices n ≠ [] := by
  have : 0 ∈ strideIndices n := by
    unfold strideIndices
    rw [List.mem_filter]
    exact ⟨List.mem_range.mpr h, by decide⟩
  intro hnil
  rw [hnil] at this
  simp at this

theorem point_weight_pos (cfg : Config) (query : ℝ → ℝ → Option ℝ)
    (p : Particle) (r : ℝ) (i : ℕ) (hfl : 0 ≤ cfg.model_noise_floor) :
    0 < point_weight cfg query p r i := by
  unfold point_weight
  have h1 : (0:ℝ) < Real.sqrt 2 / Real.sqrt Real.pi :=
    div_pos (Real.sqrt_pos.mpr (by norm_num)) (Real.sqrt_pos.mpr Real.pi_pos)
  have h2 := Real.exp_pos
    (-(((query (p.x + r * Real.cos (p.theta + (i : ℝ) * Real.pi / 180))
          (p.y + r * Real.sin (p.theta + (i : ℝ) * Real.pi / 180))).getD 5.0) ^ 2
        / 2 * cfg.model_noise_rate ^ 2))
  exact add_pos_of_pos_of_nonneg (mul_pos h1 h2) hfl

/-- C4: the sensor update assigns every particle a weight equal to the SUM
over the stride-subsampled beams of a per-beam contribution — a Gaussian
kernel in the queried obstacle distance (with an undefined query replaced by
the penalty distance 5.0) plus the additive floor — and for a scan whose
every query is undefined, every particle still receives a strictly positive
weight (given a non-empty scan and a non-negative configured floor). -/
theorem laser_weight_sum_positive (cfg : Config) (query : ℝ → ℝ → Option ℝ)
    (ranges : List ℝ) (cloud : List Particle) :
    (update_particles_with_laser cfg query ranges cloud
      = cloud.map fun p =>
        { p with
          w := ((strideIndices ranges.length).map
            (fun i =>
              Real.sqrt 2 / Real.sqrt Real.pi
                * Real.exp (-(((query
                      (p.x + ranges.getD i 0
                        * Real.cos (p.theta + (i : ℝ) * Real.pi / 180))
                      (p.y + ranges.getD i 0
                        * Real.sin (p.theta + (i : ℝ) * Real.pi / 180))).getD 5.0) ^ 2
                    / 2 * cfg.model_noise_rate ^ 2))
                + cfg.model_noise_floor)).sum })
    ∧ (ranges ≠ [] → 0 ≤ cfg.model_noise_floor →
        ∀ q ∈ update_particles_with_laser cfg (fun _ _ => none) ranges cloud,
          0 < q.w) := by
  constructor
  · rfl
  · intro hne hfl q hq
    unfold update_particles_with_laser at hq
    obtain ⟨p, _, hpq⟩ := List.mem_map.mp hq
    rw [← hpq]
    apply List.sum_pos
    · intro x hx
      obtain ⟨i, _, hix⟩ := List.mem_map.mp hx
      rw [← hix]
      exact point_weight_pos cfg _ p _ i hfl
    · have hlen : 0 < ranges.length := List.length_pos.mpr hne
      intro hmapnil
      exact strideIndices_ne_nil ranges.length hlen (List.map_eq_nil_iff.mp hmapnil)

theorem laser_weight_sum_positive_witness :
    0 < (List.head!
      (update_particles_with_laser (cfgTest 4 (1/2)) (fun _ _ => none)
        [2] [⟨0, 0, 0, 1⟩])).w := by
  have h := (laser_weight_sum_positive (cfgTest 4 (1/2)) (fun _ _ => none)
    [2] [⟨0, 0, 0, 1⟩]).2 (by simp) (by simp only [cfgTest]; norm_num)
  apply h
  apply List.head!_mem_self
  simp [update_particles_with_laser]

/-- The per-particle motion step of `ParticleFilter.update_particles_with_odom`
(pf.py lines 218-230).  `distance` is the magnitude of the odometry delta;
the particle is advanced along its own heading by that magnitude, with
gaussian noise whose mean is the computed displacement component and whose
standard deviation is the fixed fraction 0.2 of that component (0.05 of the
angular delta for the heading).  `z` is the triple of standard-normal draws
for this particle. -/
noncomputable def moveParticle (delta : ℝ × ℝ × ℝ) (z : ℝ × ℝ × ℝ)
    (p : Particle) : Particle :=
  let distance := Real.sqrt (delta.1 ^ 2 + delta.2.1 ^ 2)
  let particle_x := Real.cos p.theta * distance
  let particle_y := Real.sin p.theta * distance
  { p with
    x := p.x + gauss particle_x (particle_x * 0.2) z.1
    y := p.y + gauss particle_y (particle_y * 0.2) z.2.1
    theta := p.theta + gauss delta.2.2 (delta.2.2 * 0.05) z.2.2 }

/-- The particle-cloud loop of `update_particles_with_odom`
(pf.py lines 221-230), with `nz i` the noise draws for particle `i`. -/
noncomputable def moveCloud (delta : ℝ × ℝ × ℝ) (nz : ℕ → ℝ × ℝ × ℝ) :
    ℕ → List Particle → List Particle
  | _, [] => []
  | i, p :: rest => moveParticle delta (nz i) p :: moveCloud delta nz (i + 1) rest

/-- C3: for every particle and odometry delta, the motion update advances
the particle by the magnitude of the delta resolved along the particle's own
heading — the mean displacement `(cos theta · d, sin theta · d)` has the
same magnitude as the odometry displacement `(dx, dy)` — with position noise
of mean the computed displacement component and standard deviation the
fraction 0.2 of that component, and heading noise of mean `dtheta` and
standard deviation the fraction 0.05 of `dtheta`; the weight is untouched. -/
theorem odom_update_heading_frame (delta : ℝ × ℝ × ℝ) (z : ℝ × ℝ × ℝ)
    (p : Particle) :
    (moveParticle delta z p).x
        = p.x + Real.cos p.theta * Real.sqrt (delta.1 ^ 2 + delta.2.1 ^ 2)
          + (Real.cos p.theta * Real.sqrt (delta.1 ^ 2 + delta.2.1 ^ 2) * 0.2) * z.1
    ∧ (moveParticle delta z p).y
        = p.y + Real.sin p.theta * Real.sqrt (delta.1 ^ 2 + delta.2.1 ^ 2)
          + (Real.sin p.theta * Real.sqrt (delta.1 ^ 2 + delta.2.1 ^ 2) * 0.2) * z.2.1
    ∧ (moveParticle delta z p).theta
        = p.theta + delta.2.2 + (delta.2.2 * 0.05) * z.2.2
    ∧ (moveParticle delta z p).w = p.w
    ∧ (Real.cos p.theta * Real.sqrt (delta.1 ^ 2 + delta.2.1 ^ 2)) ^ 2
        + (Real.sin p.theta * Real.sqrt (delta.1 ^ 2 + delta.2.1 ^ 2)) ^ 2
        = delta.1 ^ 2 + delta.2.1 ^ 2 := by
  refine ⟨?_, ?_, ?_, rfl, ?_⟩
  · simp [moveParticle, gauss]
    ring
  · simp [moveParticle, gauss]
    ring
  · simp [moveParticle, gauss]
    ring
  · have hsq : Real.sqrt (delta.1 ^ 2 + delta.2.1 ^ 2) ^ 2
        = delta.1 ^ 2 + delta.2.1 ^ 2 :=
      Real.sq_sqrt (by positivity)
    calc (Real.cos p.theta * Real.sqrt (delta.1 ^ 2 + delta.2.1 ^ 2)) ^ 2
          + (Real.sin p.theta * Real.sqrt (delta.1 ^ 2 + delta.2.1 ^ 2)) ^ 2
        = (Real.cos p.theta ^ 2 + Real.sin p.theta ^ 2)
            * Real.sqrt (delta.1 ^ 2 + delta.2.1 ^ 2) ^ 2 := by ring
      _ = delta.1 ^ 2 + delta.2.1 ^ 2 := by
          rw [Real.cos_sq_add_sin_sq, one_mul, hsq]

/-- The filter state touched by `scan_received` in the TRACKING regime:
the particle cloud, the odometry baseline `current_odom_xy_theta` (`none`
models the initial empty list), the pose estimate `robot_pose`, and the
stored map-to-odom frame correction `(self.translation, self.rotation)`
(abstracted to a triple). -/
structure PFState where
  particle_cloud : List Particle
  current_odom_xy_theta : Option (ℝ × ℝ × ℝ)
  robot_pose : ℝ × ℝ × ℝ
  correction : ℝ × ℝ × ℝ

/-- The ambient inputs of one full update cycle: the per-particle motion
noise draws, the occupancy-field query, the scan ranges, the uniform draws
and jitter draws of the resampler, and the (abstracted, tf-dependent)
frame-correction computation of `fix_map_to_odom_transform` as a function of
the new pose estimate and the new odometry pose. -/
structure Env where
  nzOdom : ℕ → ℝ × ℝ × ℝ
  query : ℝ → ℝ → Option ℝ
  ranges : List ℝ
  u : ℕ → ℝ
  nzRs : ℕ → ℕ → ℝ × ℝ × ℝ
  fixCorr : (ℝ × ℝ × ℝ) → (ℝ × ℝ × ℝ) → ℝ × ℝ × ℝ

/-- The full update cycle run by `scan_received` when the motion gate fires
(pf.py lines 437-442): motion update (which also resets the baseline to the
new odometry pose, pf.py line 213), sensor update, pose estimate (which
leaves the cloud normalized), resample, frame correction. -/
noncomputable def fullUpdateCycle (cfg : Config) (env : Env) (s : PFState)
    (new cur : ℝ × ℝ × ℝ) : Option PFState := do
  let delta := (new.1 - cur.1, new.2.1 - cur.2.1, new.2.2 - cur.2.2)
  let cloud1 := moveCloud delta env.nzOdom 0 s.particle_cloud
  let cloud2 := update_particles_with_laser cfg env.query env.ranges cloud1
  let poseCloud ← update_robot_pose cloud2
  let cloud4 ← resample_particles cfg poseCloud.2 env.u env.nzRs
  some { particle_cloud := cloud4
         current_odom_xy_theta := some new
         robot_pose := poseCloud.1
         correction := env.fixCorr poseCloud.1 new }

/-- The motion gate of `scan_received` (pf.py lines 434-436), exactly as
written in the code: componentwise absolute differences of the odometry
poses against the two thresholds. -/
def update_triggered (cfg : Config) (cur new : ℝ × ℝ × ℝ) : Prop :=
  |new.1 - cur.1| > cfg.d_thresh ∨ |new.2.1 - cur.2.1| > cfg.d_thresh
    ∨ |new.2.2 - cur.2.2| > cfg.a_thresh

/-- Modelled from the spec's words, for comparison with `update_triggered`:
"if the linear magnitude exceeds a distance threshold OR the angular
magnitude exceeds an angle threshold, run the full cycle".  The linear
magnitude of the odometry delta is its Euclidean norm. -/
noncomputable def spec_update_condition (cfg : Config) (cur new : ℝ × ℝ × ℝ) : Prop :=
  Real.sqrt ((new.1 - cur.1) ^ 2 + (new.2.1 - cur.2.1) ^ 2) > cfg.d_thresh
    ∨ |new.2.2 - cur.2.2| > cfg.a_thresh

open Classical in
/-- `scan_received` in the TRACKING regime (pf.py lines 433-442): with a
non-empty cloud and a recorded baseline, the full cycle runs when the gate
fires; otherwise nothing is done to the filter state (the subsequent
republishing of the particle cloud does not modify it).  With no recorded
baseline the `elif` guard fails and nothing happens either. -/
noncomputable def scan_received_tracking (cfg : Config) (env : Env)
    (s : PFState) (new : ℝ × ℝ × ℝ) : Option PFState :=
  match s.current_odom_xy_theta with
  | none => some s
  | some cur =>
      if update_triggered cfg cur new then fullUpdateCycle cfg env s new cur
      else some s

/-- C2 counterexample: with the default thresholds (`d_thresh = 0.2`,
`a_thresh = pi/6`) and baseline `(0,0,0)`, the new odometry pose
`(0.15, 0.15, 0)` has linear magnitude `sqrt(0.045) ≈ 0.212 > 0.2`, so the
claim demands a full update — but the observation is a no-op: the code
gates on the componentwise differences, which are both `0.15 ≤ 0.2`. -/
theorem scan_gate_magnitude_cx :
    spec_update_condition (cfgTest 4 (1/2)) (0, 0, 0) (3/20, 3/20, 0)
    ∧ scan_received_tracking (cfgTest 4 (1/2))
        ⟨fun _ => (0, 0, 0), fun _ _ => none, [], fun _ => 0,
          fun _ _ => (0, 0, 0), fun _ _ => (0, 0, 0)⟩
        ⟨[⟨0, 0, 0, 1⟩], some (0, 0, 0), (0, 0, 0), (0, 0, 0)⟩
        (3/20, 3/20, 0)
      = some ⟨[⟨0, 0, 0, 1⟩], some (0, 0, 0), (0, 0, 0), (0, 0, 0)⟩ := by
  constructor
  · left
    show Real.sqrt (((3:ℝ)/20 - 0) ^ 2 + ((3:ℝ)/20 - 0) ^ 2)
        > (cfgTest 4 (1/2)).d_thresh
    have hd : (cfgTest 4 (1/2)).d_thresh = 0.2 := rfl
    rw [hd]
    exact (Real.lt_sqrt (by norm_num)).mpr (by norm_num)
  · have hnt : ¬ update_triggered (cfgTest 4 (1/2)) (0, 0, 0) (3/20, 3/20, 0) := by
      intro h
      rcases h with h | h | h
      · rw [show (cfgTest 4 (1/2)).d_thresh = 0.2 from rfl] at h
        rw [abs_of_nonneg (by norm_num : (0:ℝ) ≤ (3:ℝ)/20 - 0)] at h
        norm_num at h
      · rw [show (cfgTest 4 (1/2)).d_thresh = 0.2 from rfl] at h
        rw [abs_of_nonneg (by norm_num : (0:ℝ) ≤ (3:ℝ)/20 - 0)] at h
        norm_num at h
      · rw [show (cfgTest 4 (1/2)).a_thresh = Real.pi / 6 from rfl] at h
        rw [show ((0:ℝ) - 0) = 0 by norm_num, abs_zero] at h
        have := Real.pi_pos
        linarith
    unfold scan_received_tracking
    simp only [if_neg hnt]

/-- C2 as amended: in the TRACKING state, the full cycle runs if and only
if one of the COMPONENTWISE absolute odometry deltas `|dx|`, `|dy|` exceeds
`d_thresh` or `|dtheta|` exceeds `a_thresh` (not the Euclidean linear
magnitude); otherwise the observation leaves the particle cloud, the
baseline, and the stored frame correction unchanged. -/
theorem scan_gate_componentwise (cfg : Config) (env : Env) (s : PFState)
    (new cur : ℝ × ℝ × ℝ) (hb : s.current_odom_xy_theta = some cur) :
    (update_triggered cfg cur new
      ↔ (|new.1 - cur.1| > cfg.d_thresh ∨ |new.2.1 - cur.2.1| > cfg.d_thresh
          ∨ |new.2.2 - cur.2.2| > cfg.a_thresh))
    ∧ (¬ update_triggered cfg cur new →
        scan_received_tracking cfg env s new = some s)
    ∧ (update_triggered cfg cur new →
        scan_received_tracking cfg env s new = fullUpdateCycle cfg env s new cur) := by
  refine ⟨Iff.rfl, ?_, ?_⟩
  · intro hnt
    unfold scan_received_tracking
    rw [hb]
    simp only [if_neg hnt]
  · intro ht
    unfold scan_received_tracking
    rw [hb]
    simp only [if_pos ht]

theorem scan_gate_componentwise_witness :
    scan_received_tracking (cfgTest 4 (1/2))
        ⟨fun _ => (0, 0, 0), fun _ _ => none, [], fun _ => 0,
          fun _ _ => (0, 0, 0), fun _ _ => (0, 0, 0)⟩
        ⟨[⟨0, 0, 0, 1⟩], some (1, 1, 0), (0, 0, 0), (0, 0, 0)⟩
        (0, 0, 0)
      = fullUpdateCycle (cfgTest 4 (1/2))
        ⟨fun _ => (0, 0, 0), fun _ _ => none, [], fun _ => 0,
          fun _ _ => (0, 0, 0), fun _ _ => (0, 0, 0)⟩
        ⟨[⟨0, 0, 0, 1⟩], some (1, 1, 0), (0, 0, 0), (0, 0, 0)⟩
        (0, 0, 0) (1, 1, 0) := by
  apply (scan_gate_componentwise (cfgTest 4 (1/2)) _ _ (0, 0, 0) (1, 1, 0) rfl).2.2
  left
  rw [show (cfgTest 4 (1/2)).d_thresh = 0.2 from rfl]
  rw [show |(0:ℝ) - 1| = 1 by rw [abs_of_nonpos] <;> norm_num]
  norm_num

end PF
